import Mathlib

/-!
Verification development for a symbol-interning library (`symbol-map`).

The library consists of an arena (`Table`) that owns a singly linked chain of
`Symbol` entries (newest first) together with a monotonically advancing
`next_id` counter, and a hash-based bidirectional index (`HashIndexing`)
layered on top of the arena.

The Lean model below is a shallow embedding of the Rust source:
* a `Symbol` keeps its assigned identifier and its data; the chain link of the
  Rust struct is represented by the position of the symbol in the `chain` list
  of its owning `Table` (head of the list = head of the chain);
* identifiers (`SymbolId`) are modelled as `Nat` (`Default::default()` is `0`,
  `next` is successor, `as_usize` the identity);
* the raw-pointer maps `by_symbol : HashMap<Ref<T>, Ref<Symbol<T>>>` and
  `by_id : Vec<Ref<Symbol<T>>>` of `HashIndexing` are modelled at the value
  level: an association list keyed by the data values and a list of symbols
  indexed by position;
* Rust code that can panic (the `by_id[...] = ...` vector write in
  `from_table`) is modelled with `Option`.

Stateful closures (`FnMut`) handed to `Table::remap` are modelled as explicit
state-passing functions `σ → Symbol T → σ × Option Nat`.
-/

namespace SymbolMap

/-- One table entry: an identifier together with the stored data.  The Rust
struct also carries the `next` chain pointer; in this model the chain is the
list held by the owning `Table`. -/
structure Symbol (T : Type) where
  id : Nat
  data : T
deriving DecidableEq, Repr

/-- The arena: the chain of live entries (head first, i.e. newest first) and
the next identifier to assign. -/
structure Table (T : Type) where
  chain : List (Symbol T)
  next_id : Nat
deriving DecidableEq, Repr

/-- `Table::new()`: empty chain, `next_id = Default::default() = 0`. -/
def Table.new {T : Type} : Table T :=
  { chain := [], next_id := 0 }

/-- `Table::len()`: returns `self.next_id.as_usize()`. -/
def Table.len {T : Type} (t : Table T) : Nat :=
  t.next_id

/-- `Table::insert(value)`: allocates a symbol carrying the current `next_id`,
links it as the new head (its successor is the old head), advances the
counter, and returns the new symbol alongside the updated table. -/
def Table.insert {T : Type} (t : Table T) (v : T) : Table T × Symbol T :=
  let s : Symbol T := { id := t.next_id, data := v }
  ({ chain := s :: t.chain, next_id := t.next_id + 1 }, s)

/-- `Table::emplace_head(value)`: pushes `value` on the front of the chain,
leaving `next_id` alone. -/
def Table.emplace_head {T : Type} (t : Table T) (s : Symbol T) : Table T :=
  { t with chain := s :: t.chain }

/-- Loop body of `Table::remap`: walks the old chain head-first; when `f`
yields `some d` the symbol survives with identifier `d`, is emplaced at the
head of the accumulator table and the accumulator's `next_id` is advanced;
when `f` yields `none` the symbol is dropped.  The closure state `st` models
the `FnMut` environment of the Rust closure. -/
def remapGo {T σ : Type} (f : σ → Symbol T → σ × Option Nat) :
    σ → List (Symbol T) → Table T → Table T
  | _, [], acc => acc
  | st, s :: rest, acc =>
    match f st s with
    | (st', some d) =>
      remapGo f st' rest
        { (acc.emplace_head { s with id := d }) with next_id := acc.next_id + 1 }
    | (st', none) => remapGo f st' rest acc

/-- `Table::remap(f)`: rebuilds the table by walking the old chain from the
head with `f`, starting from a fresh empty table. -/
def Table.remap {T σ : Type} (t : Table T) (f : σ → Symbol T → σ × Option Nat)
    (st : σ) : Table T :=
  remapGo f st t.chain Table.new

/-- State of `TableIter`: the advertised remaining count and the rest of the
chain still to be yielded. -/
structure TableIter (T : Type) where
  remaining : Nat
  item : List (Symbol T)
deriving DecidableEq, Repr

/-- `Table::iter()`: starts at the head with `remaining = len()`. -/
def Table.iter {T : Type} (t : Table T) : TableIter T :=
  { remaining := t.len, item := t.chain }

/-- `TableIter::next()`: yields the current symbol (if any), decrements
`remaining` and advances down the chain. -/
def TableIter.step {T : Type} : TableIter T → Option (Symbol T) × TableIter T
  | { remaining := r, item := [] } => (none, { remaining := r, item := [] })
  | { remaining := r, item := s :: rest } =>
      (some s, { remaining := r - 1, item := rest })

/-- `TableIter::size_hint()`: `(remaining, Some(remaining))`. -/
def TableIter.sizeHint {T : Type} (it : TableIter T) : Nat × Option Nat :=
  (it.remaining, some it.remaining)

/-- Loop of `iterate`, recursing on the chain suffix while tracking the
`remaining` counter exactly as `TableIter::next` updates it. -/
def iterateGo {T : Type} : Nat → List (Symbol T) → List (Symbol T)
  | _, [] => []
  | r, s :: rest => s :: iterateGo (r - 1) rest

/-- Runs the iterator to exhaustion, collecting the yielded symbols. -/
def iterate {T : Type} (it : TableIter T) : List (Symbol T) :=
  iterateGo it.remaining it.item

/-- Applies `TableIter::next` a given number of times, discarding the yielded
elements. -/
def TableIter.stepN {T : Type} : TableIter T → Nat → TableIter T
  | it, 0 => it
  | it, k + 1 => TableIter.stepN (it.step).2 k

/-- `HashMap::insert` on the value→identifier map of `to_hash_map`: replaces
the binding of an existing equal key, otherwise appends a new binding. -/
def mapInsert {T : Type} [DecidableEq T] :
    List (T × Nat) → T → Nat → List (T × Nat)
  | [], k, v => [(k, v)]
  | (k', v') :: rest, k, v =>
      if k' = k then (k', v) :: rest else (k', v') :: mapInsert rest k v

/-- `HashMap::get` on the value→identifier map. -/
def mapLookup {T : Type} [DecidableEq T] : List (T × Nat) → T → Option Nat
  | [], _ => none
  | (k, v) :: rest, x => if k = x then some v else mapLookup rest x

/-- Loop body of `Table::to_hash_map`: walks the chain head-first, inserting
`(symbol.data, symbol.id)` into the map (later inserts overwrite earlier ones
with an equal key). -/
def toHashMapGo {T : Type} [DecidableEq T] :
    List (Symbol T) → List (T × Nat) → List (T × Nat)
  | [], m => m
  | s :: rest, m => toHashMapGo rest (mapInsert m s.data s.id)

/-- `Table::to_hash_map()`: consumes the chain, producing the value→identifier
map. -/
def Table.to_hash_map {T : Type} [DecidableEq T] (t : Table T) :
    List (T × Nat) :=
  toHashMapGo t.chain []

/-- `HashMap::insert` on `by_symbol` (value keys, symbol values). -/
def symInsert {T : Type} [DecidableEq T] :
    List (T × Symbol T) → T → Symbol T → List (T × Symbol T)
  | [], k, v => [(k, v)]
  | (k', v') :: rest, k, v =>
      if k' = k then (k', v) :: rest else (k', v') :: symInsert rest k v

/-- `HashMap::get` on `by_symbol`: the symbol registered under a key equal to
the probe value, if any. -/
def symLookup {T : Type} [DecidableEq T] :
    List (T × Symbol T) → T → Option (Symbol T)
  | [], _ => none
  | (k, v) :: rest, x => if k = x then some v else symLookup rest x

/-- `Vec` element assignment `v[i] = a`, which panics (here: `none`) when `i`
is out of bounds. -/
def vecSet {α : Type} : List α → Nat → α → Option (List α)
  | [], _, _ => none
  | _ :: rest, 0, a => some (a :: rest)
  | b :: rest, n + 1, a => (vecSet rest n a).map (fun l => b :: l)

/-- The hash-based index: the owned table, the value→symbol map `by_symbol`
and the id-indexed vector `by_id`. -/
structure HashIndexing (T : Type) where
  table : Table T
  by_symbol : List (T × Symbol T)
  by_id : List (Symbol T)
deriving Repr

/-- `HashIndexing::default()`: empty table, empty maps. -/
def HashIndexing.empty {T : Type} : HashIndexing T :=
  { table := Table.new, by_symbol := [], by_id := [] }

/-- Loop body of `HashIndexing::from_table`: for each symbol of the chain
(head first), registers it in `by_symbol` and writes it at index `id` of
`by_id` (a panicking vector write, modelled with `Option`). -/
def fromTableGo {T : Type} [DecidableEq T] :
    List (Symbol T) → List (T × Symbol T) → List (Symbol T) →
      Option (List (T × Symbol T) × List (Symbol T))
  | [], bs, bi => some (bs, bi)
  | s :: rest, bs, bi =>
    match vecSet bi s.id s with
    | none => none
    | some bi' => fromTableGo rest (symInsert bs s.data s) bi'

/-- `HashIndexing::from_table(table)`: `by_id` starts as `len()` copies of the
first symbol of the chain (empty when the chain is empty), then every chain
symbol is registered in both structures. -/
def HashIndexing.from_table {T : Type} [DecidableEq T] (t : Table T) :
    Option (HashIndexing T) :=
  let bi0 : List (Symbol T) :=
    match t.chain with
    | [] => []
    | s :: _ => List.replicate t.len s
  (fromTableGo t.chain [] bi0).map
    (fun p => { table := t, by_symbol := p.1, by_id := p.2 })

/-- `HashIndexing::get(data)`: a `by_symbol` lookup; no mutation. -/
def HashIndexing.get {T : Type} [DecidableEq T] (h : HashIndexing T) (v : T) :
    Option (Symbol T) :=
  symLookup h.by_symbol v

/-- `HashIndexing::get_symbol(id)`: `by_id.get(id.as_usize())`; no
mutation. -/
def HashIndexing.get_symbol {T : Type} (h : HashIndexing T) (i : Nat) :
    Option (Symbol T) :=
  h.by_id[i]?

/-- Result tag of `get_or_insert`. -/
inductive Insertion (T : Type) where
  | present (s : Symbol T)
  | new (s : Symbol T)
deriving DecidableEq, Repr

/-- `HashIndexing::get_or_insert(data)`: on a hit returns the registered
symbol tagged `Present` and changes nothing; on a miss inserts into the table,
registers the new symbol in `by_symbol` and pushes it onto `by_id`, returning
it tagged `New`. -/
def HashIndexing.get_or_insert {T : Type} [DecidableEq T] (h : HashIndexing T)
    (v : T) : HashIndexing T × Insertion T :=
  match symLookup h.by_symbol v with
  | some s => (h, Insertion.present s)
  | none =>
    let p := h.table.insert v
    ({ table := p.1,
       by_symbol := symInsert h.by_symbol v p.2,
       by_id := h.by_id ++ [p.2] },
     Insertion.new p.2)

/-- Folds a sequence of `get_or_insert` calls (in list order) over an index. -/
def stepGOI {T : Type} [DecidableEq T] : HashIndexing T → List T → HashIndexing T
  | h, [] => h
  | h, v :: vs => stepGOI (h.get_or_insert v).1 vs

/-- Runs a sequence of `get_or_insert` calls on an initially empty index. -/
def runGOI {T : Type} [DecidableEq T] (vs : List T) : HashIndexing T :=
  stepGOI HashIndexing.empty vs

/-- Folds a sequence of plain `Table::insert` calls (in list order). -/
def insertAll {T : Type} : Table T → List T → Table T
  | t, [] => t
  | t, v :: vs => insertAll (t.insert v).1 vs

/-- Counts the entries of a chain for which the (stateful) remap function
yields an identifier, threading the closure state exactly as `remapGo`
does. -/
def countKept {T σ : Type} (f : σ → Symbol T → σ × Option Nat) :
    σ → List (Symbol T) → Nat
  | _, [] => 0
  | st, s :: rest =>
    match f st s with
    | (st', some _) => countKept f st' rest + 1
    | (st', none) => countKept f st' rest

/-- Tables reachable through the public constructors: `Table::new`,
`Table::insert` and `Table::remap` (with an arbitrary stateful remap
function). -/
inductive Reachable {T : Type} : Table T → Prop where
  | new : Reachable Table.new
  | insert : ∀ {t : Table T} (v : T), Reachable t → Reachable (t.insert v).1
  | remap : ∀ {t : Table T} {σ : Type} (f : σ → Symbol T → σ × Option Nat)
      (st : σ), Reachable t → Reachable (t.remap f st)

/-- Consistency of a `HashIndexing` with its table: live data values are
pairwise distinct, `by_symbol` holds exactly the live entries keyed by their
data, `by_id` only holds live entries at their identifier position, and the
sizes agree with the chain. -/
def IndexInv {T : Type} [DecidableEq T] (h : HashIndexing T) : Prop :=
  ((h.table.chain.map Symbol.data).Nodup) ∧
  (∀ v s, symLookup h.by_symbol v = some s ↔ (s ∈ h.table.chain ∧ s.data = v)) ∧
  (∀ i s, h.by_id[i]? = some s → s ∈ h.table.chain ∧ s.id = i) ∧
  h.by_id.length = h.table.chain.length ∧
  h.table.next_id = h.table.chain.length

/-- Modelled from the spec: `retain(predicate)` is absent from the source (it
survives only in doc comments); per the spec it keeps exactly the entries
satisfying the predicate, "preserving relative order, into a fresh chain and
reassigned sequential identifiers starting at zero in walk order (newest to
oldest)". -/
def Table.retainSpec {T : Type} (t : Table T) (p : Symbol T → Bool) : Table T :=
  { chain :=
      List.zipWith (fun i s => { id := i, data := s.data })
        (List.range (t.chain.filter p).length) (t.chain.filter p),
    next_id := (t.chain.filter p).length }

/-- The fresh-sequential-identifier remap function of the claims: a counter
starting at zero, incremented once per survivor; entries failing `p` are
dropped. -/
def freshF {T : Type} (p : Symbol T → Bool) : Nat → Symbol T → Nat × Option Nat :=
  fun c s => if p s then (c + 1, some c) else (c, none)

/-- The predicate of Scenario B: keep entries whose (original) identifier is
even. -/
def pEven {T : Type} (s : Symbol T) : Bool :=
  s.id % 2 == 0

/-- The table of Scenario A: values `[101, 203, 500, 30, 0, 1]` inserted into
an empty table in that order. -/
def table6 : Table Nat :=
  insertAll Table.new [101, 203, 500, 30, 0, 1]

/-- `PartialEq for Symbol`: delegates to equality of the stored data,
ignoring the identifier and the chain link. -/
def symbolBEq {T : Type} [DecidableEq T] (a b : Symbol T) : Bool :=
  a.data == b.data

/-- `Hash for Symbol`: hashes only the stored data (for any hasher `hf`). -/
def symbolHash {T : Type} (hf : T → Nat) (a : Symbol T) : Nat :=
  hf a.data

/-- `Ord for Symbol`: delegates to comparison of the stored data (for any
comparison `c` on `T`). -/
def symbolCmp {T : Type} (c : T → T → Ordering) (a b : Symbol T) : Ordering :=
  c a.data b.data

theorem symLookup_symInsert {T : Type} [DecidableEq T]
    (m : List (T × Symbol T)) (k x : T) (s : Symbol T) :
    symLookup (symInsert m k s) x = if k = x then some s else symLookup m x := by
  induction m with
  | nil => simp [symInsert, symLookup]
  | cons p rest ih =>
    obtain ⟨k', v'⟩ := p
    simp only [symInsert]
    by_cases hk : k' = k
    · subst hk
      rw [if_pos rfl]
      by_cases hx : k' = x
      · subst hx
        simp [symLookup]
      · simp [symLookup, hx]
    · rw [if_neg hk]
      by_cases hx2 : k' = x
      · subst hx2
        have hkx : ¬k = k' := fun hs => hk hs.symm
        simp [symLookup, hkx]
      · simp [symLookup, hx2, ih]

theorem goi_hit {T : Type} [DecidableEq T] {h : HashIndexing T} {v : T}
    {s : Symbol T} (hl : symLookup h.by_symbol v = some s) :
    h.get_or_insert v = (h, Insertion.present s) := by
  simp [HashIndexing.get_or_insert, hl]

theorem goi_miss {T : Type} [DecidableEq T] {h : HashIndexing T} {v : T}
    (hl : symLookup h.by_symbol v = none) :
    h.get_or_insert v =
      ({ table := (h.table.insert v).1,
         by_symbol := symInsert h.by_symbol v (h.table.insert v).2,
         by_id := h.by_id ++ [(h.table.insert v).2] },
       Insertion.new (h.table.insert v).2) := by
  simp [HashIndexing.get_or_insert, hl]

theorem indexInv_empty {T : Type} [DecidableEq T] :
    IndexInv (HashIndexing.empty (T := T)) := by
  refine ⟨?_, ?_, ?_, ?_, ?_⟩ <;>
    simp [HashIndexing.empty, Table.new, symLookup]

theorem indexInv_goi {T : Type} [DecidableEq T] {h : HashIndexing T}
    (hi : IndexInv h) (v : T) : IndexInv (h.get_or_insert v).1 := by
  obtain ⟨hnd, hsym, hid, hlen, hnext⟩ := hi
  cases hl : symLookup h.by_symbol v with
  | some s => rw [goi_hit hl]; exact ⟨hnd, hsym, hid, hlen, hnext⟩
  | none =>
    rw [goi_miss hl]
    simp only [Table.insert]
    refine ⟨?_, ?_, ?_, ?_, ?_⟩ <;> dsimp only
    · simp only [List.map_cons, List.nodup_cons]
      refine ⟨?_, hnd⟩
      intro hv
      obtain ⟨s', hs', hdata⟩ := List.mem_map.mp hv
      have hcontra := (hsym v s').mpr ⟨hs', hdata⟩
      rw [hl] at hcontra
      exact Option.noConfusion hcontra
    · intro x s
      rw [symLookup_symInsert]
      by_cases hx : v = x
      · subst hx
        rw [if_pos rfl]
        constructor
        · intro h'
          injection h' with h'
          subst h'
          exact ⟨List.mem_cons_self _ _, rfl⟩
        · rintro ⟨hs, hdata⟩
          rcases List.mem_cons.mp hs with h' | h'
          · subst h'; rfl
          · exfalso
            have hcontra := (hsym v s).mpr ⟨h', hdata⟩
            rw [hl] at hcontra
            exact Option.noConfusion hcontra
      · rw [if_neg hx, hsym x s]
        constructor
        · rintro ⟨hs, hdata⟩
          exact ⟨List.mem_cons_of_mem _ hs, hdata⟩
        · rintro ⟨hs, hdata⟩
          rcases List.mem_cons.mp hs with h' | h'
          · subst h'
            exact absurd hdata hx
          · exact ⟨h', hdata⟩
    · intro i s hget
      rw [List.getElem?_append] at hget
      rcases Nat.lt_or_ge i h.by_id.length with hlt | hge
      · rw [if_pos hlt] at hget
        obtain ⟨hmem, hid'⟩ := hid i s hget
        exact ⟨List.mem_cons_of_mem _ hmem, hid'⟩
      · rw [if_neg (Nat.not_lt.mpr hge)] at hget
        cases hd : i - h.by_id.length with
        | zero =>
          rw [hd] at hget
          simp only [List.getElem?_cons_zero, Option.some.injEq] at hget
          subst hget
          have hieq : i = h.by_id.length :=
            Nat.le_antisymm (Nat.le_of_sub_eq_zero hd) hge
          refine ⟨List.mem_cons_self _ _, ?_⟩
          rw [hieq, hlen]
          exact hnext
        | succ n =>
          rw [hd] at hget
          simp at hget
    · simp [hlen]
    · rw [hnext]
      simp

theorem indexInv_stepGOI {T : Type} [DecidableEq T] {h : HashIndexing T}
    (hi : IndexInv h) (vs : List T) : IndexInv (stepGOI h vs) := by
  induction vs generalizing h with
  | nil => exact hi
  | cons v vs ih => exact ih (indexInv_goi hi v)

theorem indexInv_runGOI {T : Type} [DecidableEq T] (vs : List T) :
    IndexInv (runGOI (T := T) vs) :=
  indexInv_stepGOI indexInv_empty vs

theorem goi_data_mem {T : Type} [DecidableEq T] {h : HashIndexing T}
    (hi : IndexInv h) (v x : T) :
    (∃ s ∈ (h.get_or_insert v).1.table.chain, s.data = x) ↔
      (x = v ∨ ∃ s ∈ h.table.chain, s.data = x) := by
  obtain ⟨hnd, hsym, _, _, _⟩ := hi
  cases hl : symLookup h.by_symbol v with
  | some s =>
    rw [goi_hit hl]
    constructor
    · intro hx; exact Or.inr hx
    · rintro (rfl | hx)
      · exact ⟨s, ((hsym x s).mp hl).1, ((hsym x s).mp hl).2⟩
      · exact hx
  | none =>
    rw [goi_miss hl]
    simp only [Table.insert, List.mem_cons]
    constructor
    · rintro ⟨s, hs | hs, hdata⟩
      · subst hs
        exact Or.inl hdata.symm
      · exact Or.inr ⟨s, hs, hdata⟩
    · rintro (rfl | ⟨s, hs, hdata⟩)
      · exact ⟨{ id := h.table.next_id, data := x }, Or.inl rfl, rfl⟩
      · exact ⟨s, Or.inr hs, hdata⟩

theorem stepGOI_data_mem {T : Type} [DecidableEq T] {h : HashIndexing T}
    (hi : IndexInv h) (vs : List T) (x : T) :
    (∃ s ∈ (stepGOI h vs).table.chain, s.data = x) ↔
      (x ∈ vs ∨ ∃ s ∈ h.table.chain, s.data = x) := by
  induction vs generalizing h with
  | nil => simp [stepGOI]
  | cons v vs ih =>
    have hstep : stepGOI h (v :: vs) = stepGOI (h.get_or_insert v).1 vs := rfl
    rw [hstep, ih (indexInv_goi hi v), goi_data_mem hi v x, List.mem_cons]
    tauto

theorem runGOI_data_mem {T : Type} [DecidableEq T] (vs : List T) (x : T) :
    (∃ s ∈ (runGOI vs).table.chain, s.data = x) ↔ x ∈ vs := by
  rw [runGOI, stepGOI_data_mem indexInv_empty]
  simp [HashIndexing.empty, Table.new]

/-- **C1.** For every sequence of `get_or_insert` calls on a `HashIndexing`
starting from the empty index, at most one table entry is ever created per
value-equivalence class (the data values of the chain are pairwise distinct):
a call with a value equal to one previously inserted returns the existing
entry (so in particular the same identifier) tagged `Present` and leaves the
whole index — in particular the table — unchanged, while a call with a
not-yet-present value performs exactly one table insertion (the chain grows by
exactly the returned entry and the id counter by one) and returns the new
entry tagged `New`. -/
theorem c1_get_or_insert_dedup {T : Type} [DecidableEq T] (vs : List T) (v : T) :
    (((runGOI vs).table.chain.map Symbol.data).Nodup) ∧
    (v ∈ vs →
      ((runGOI vs).get_or_insert v).1 = runGOI vs ∧
      ∃ s, ((runGOI vs).get_or_insert v).2 = Insertion.present s ∧
        s ∈ (runGOI vs).table.chain ∧ s.data = v) ∧
    (v ∉ vs →
      ∃ s, ((runGOI vs).get_or_insert v).2 = Insertion.new s ∧ s.data = v ∧
        ((runGOI vs).get_or_insert v).1.table.chain = s :: (runGOI vs).table.chain ∧
        ((runGOI vs).get_or_insert v).1.table.next_id
          = (runGOI vs).table.next_id + 1) := by
  obtain ⟨hnd, hsym, hid, hlen, hnext⟩ := indexInv_runGOI (T := T) vs
  refine ⟨hnd, ?_, ?_⟩
  · intro hv
    obtain ⟨s, hs, hdata⟩ := (runGOI_data_mem vs v).mpr hv
    have hl : symLookup (runGOI vs).by_symbol v = some s :=
      (hsym v s).mpr ⟨hs, hdata⟩
    rw [goi_hit hl]
    exact ⟨rfl, s, rfl, hs, hdata⟩
  · intro hv
    have hl : symLookup (runGOI vs).by_symbol v = none := by
      cases hl' : symLookup (runGOI vs).by_symbol v with
      | none => rfl
      | some s =>
        exfalso
        obtain ⟨hs, hdata⟩ := (hsym v s).mp hl'
        exact hv ((runGOI_data_mem vs v).mp ⟨s, hs, hdata⟩)
    rw [goi_miss hl]
    exact ⟨((runGOI vs).table.insert v).2, rfl, rfl, by simp [Table.insert],
      by simp [Table.insert]⟩

/-- Witness for C1: a concrete repeated insertion (`5` after `[5, 7]`) is a
hit that leaves the index unchanged. -/
theorem c1_witness :
    ((5 : Nat) ∈ [5, 7]) ∧
      ((runGOI [(5 : Nat), 7]).get_or_insert 5).1 = runGOI [(5 : Nat), 7] :=
  ⟨by decide, ((c1_get_or_insert_dedup [(5 : Nat), 7] 5).2.1 (by decide)).1⟩

theorem zipWith_mk_map_id {T : Type} :
    ∀ (ns : List Nat) (vs : List T), ns.length = vs.length →
      (List.zipWith (fun i v => ({ id := i, data := v } : Symbol T)) ns vs).map
        Symbol.id = ns := by
  intro ns
  induction ns with
  | nil => intro vs _; simp
  | cons n ns ih =>
    intro vs h
    cases vs with
    | nil => simp at h
    | cons v vs =>
      simp only [List.zipWith_cons_cons, List.map_cons, List.cons.injEq]
      exact ⟨trivial, ih vs (by simpa using h)⟩

theorem zipWith_mk_map_data {T : Type} :
    ∀ (ns : List Nat) (vs : List T), ns.length = vs.length →
      (List.zipWith (fun i v => ({ id := i, data := v } : Symbol T)) ns vs).map
        Symbol.data = vs := by
  intro ns
  induction ns with
  | nil =>
    intro vs h
    have hnil : vs = [] := List.length_eq_zero.mp h.symm
    subst hnil
    simp
  | cons n ns ih =>
    intro vs h
    cases vs with
    | nil => simp at h
    | cons v vs =>
      simp only [List.zipWith_cons_cons, List.map_cons, List.cons.injEq]
      exact ⟨trivial, ih vs (by simpa using h)⟩

theorem insertAll_spec {T : Type} :
    ∀ (vs : List T) (t : Table T),
      (insertAll t vs).chain =
        (List.zipWith (fun i v => ({ id := i, data := v } : Symbol T))
          (List.range' t.next_id vs.length) vs).reverse ++ t.chain ∧
      (insertAll t vs).next_id = t.next_id + vs.length := by
  intro vs
  induction vs with
  | nil => intro t; simp [insertAll]
  | cons v vs ih =>
    intro t
    have h := ih (t.insert v).1
    constructor
    · show (insertAll (t.insert v).1 vs).chain = _
      rw [h.1]
      simp only [Table.insert, List.length_cons, List.range'_succ,
        List.zipWith_cons_cons, List.reverse_cons, List.append_assoc,
        List.singleton_append]
    · show (insertAll (t.insert v).1 vs).next_id = _
      rw [h.2]
      simp only [Table.insert, List.length_cons]
      omega

/-- **C2.** For every sequence of `N` insertions of distinct values into a
newly created empty table, the identifiers assigned to the entries are exactly
`{0, ..., N-1}` in insertion order (walking the chain from the head, the
identifiers are `N-1, ..., 0` and the data values are the insertions reversed,
so the `k`-th inserted value carries identifier `k-1`), and every single
insert links the new entry as the new head with the old head as its
successor. -/
theorem c2_insert_sequential_ids {T : Type} (vs : List T) (hnd : vs.Nodup) :
    ((insertAll Table.new vs).chain.map Symbol.id = (List.range vs.length).reverse) ∧
    ((insertAll Table.new vs).chain.map Symbol.data = vs.reverse) ∧
    ((insertAll Table.new vs).next_id = vs.length) ∧
    (∀ (u : Table T) (v : T),
      (u.insert v).1.chain = (u.insert v).2 :: u.chain ∧
      (u.insert v).2 = { id := u.next_id, data := v } ∧
      (u.insert v).1.next_id = u.next_id + 1) := by
  have h := insertAll_spec vs (Table.new (T := T))
  have hlen : (List.range' 0 vs.length).length = vs.length := List.length_range' _ _ _
  refine ⟨?_, ?_, ?_, ?_⟩
  · rw [h.1]
    simp only [Table.new, List.append_nil, List.map_reverse]
    rw [zipWith_mk_map_id _ _ hlen, List.range_eq_range']
  · rw [h.1]
    simp only [Table.new, List.append_nil, List.map_reverse]
    rw [zipWith_mk_map_data _ _ hlen]
  · rw [h.2]
    simp [Table.new]
  · intro u v
    exact ⟨rfl, rfl, rfl⟩

/-- Witness for C2 at a concrete distinct-value sequence. -/
theorem c2_witness :
    ([3, 1, 2] : List Nat).Nodup ∧
      (insertAll Table.new [(3 : Nat), 1, 2]).chain.map Symbol.id
        = (List.range 3).reverse :=
  ⟨by decide, (c2_insert_sequential_ids [(3 : Nat), 1, 2] (by decide)).1⟩

theorem remapGo_count {T σ : Type} (f : σ → Symbol T → σ × Option Nat) :
    ∀ (l : List (Symbol T)) (st : σ) (acc : Table T),
      (remapGo f st l acc).next_id = acc.next_id + countKept f st l ∧
      (remapGo f st l acc).chain.length = acc.chain.length + countKept f st l := by
  intro l
  induction l with
  | nil => intro st acc; simp [remapGo, countKept]
  | cons s rest ih =>
    intro st acc
    rcases hf : f st s with ⟨st', d⟩
    cases d with
    | some n =>
      simp only [remapGo, countKept, hf]
      have h := ih st' { (acc.emplace_head { s with id := n }) with
        next_id := acc.next_id + 1 }
      rw [h.1, h.2]
      simp only [Table.emplace_head, List.length_cons]
      omega
    | none =>
      simp only [remapGo, countKept, hf]
      exact ih st' acc

theorem countKept_le {T σ : Type} (f : σ → Symbol T → σ × Option Nat) :
    ∀ (st : σ) (l : List (Symbol T)), countKept f st l ≤ l.length := by
  intro st l
  induction l generalizing st with
  | nil => simp [countKept]
  | cons s rest ih =>
    rcases hf : f st s with ⟨st', d⟩
    cases d with
    | some n =>
      simp only [countKept, hf, List.length_cons]
      exact Nat.succ_le_succ (ih st')
    | none =>
      simp only [countKept, hf, List.length_cons]
      exact Nat.le_succ_of_le (ih st')

theorem reachable_wf {T : Type} {t : Table T} (hr : Reachable t) :
    t.next_id = t.chain.length := by
  induction hr with
  | new => rfl
  | insert v _ ih => simp [Table.insert, ih]
  | @remap t' σ f st _ _ =>
    have h := remapGo_count f t'.chain st (Table.new (T := T))
    show (t'.remap f st).next_id = (t'.remap f st).chain.length
    rw [Table.remap, h.1, h.2]
    simp [Table.new]

/-- **C4.** For every table reachable through the public operations (`new`,
`insert`, `remap`), `len()` — defined in the source as the numeric value of
the next identifier to assign — equals the number of live entries in the
chain; every `insert` increases `len()` by one, and a `remap` dropping `k`
entries decreases `len()` by `k`. -/
theorem c4_len_live_entries {T : Type} (t : Table T) (hr : Reachable t) :
    (t.len = t.chain.length) ∧
    (∀ v, (t.insert v).1.len = t.len + 1) ∧
    (∀ (σ : Type) (f : σ → Symbol T → σ × Option Nat) (st : σ),
      (t.remap f st).len
        = t.len - (t.chain.length - countKept f st t.chain)) := by
  have hwf := reachable_wf hr
  refine ⟨hwf, fun v => rfl, ?_⟩
  intro σ f st
  have h := remapGo_count f t.chain st (Table.new)
  have hle := countKept_le f st t.chain
  show (remapGo f st t.chain Table.new).next_id = _
  rw [h.1]
  simp only [Table.new, Table.len]
  omega

/-- Witness for C4: the singleton table built by one insertion is reachable
and its length equals its chain length. -/
theorem c4_witness :
    ((Table.new.insert (5 : Nat)).1.len
      = (Table.new.insert (5 : Nat)).1.chain.length) :=
  (c4_len_live_entries (Table.new.insert (5 : Nat)).1
    (Reachable.insert 5 Reachable.new)).1

theorem iterate_item {T : Type} :
    ∀ (r : Nat) (l : List (Symbol T)), iterate { remaining := r, item := l } = l := by
  intro r l
  induction l generalizing r with
  | nil => simp [iterate, iterateGo]
  | cons s rest ih =>
    simp only [iterate, iterateGo] at ih ⊢
    rw [ih]

theorem stepN_spec {T : Type} :
    ∀ (k : Nat) (r : Nat) (l : List (Symbol T)), k ≤ l.length →
      TableIter.stepN { remaining := r, item := l } k
        = { remaining := r - k, item := l.drop k } := by
  intro k
  induction k with
  | zero => intro r l _; simp [TableIter.stepN]
  | succ k ih =>
    intro r l h
    cases l with
    | nil => simp at h
    | cons s rest =>
      show TableIter.stepN { remaining := r - 1, item := rest } k = _
      rw [ih (r - 1) rest (by simpa using h)]
      simp only [List.drop_succ_cons]
      congr 1
      omega

/-- **C6.** For every table satisfying the length invariant (`next_id` equals
the chain length, which holds for all reachable tables), running the iterator
to exhaustion yields exactly the chain (the live entries, newest first),
taking exactly `len()` steps; after any number `k ≤ len()` of steps the
iterator's `size_hint` reports the exact number of remaining entries as both
lower and upper bound, and that number matches the entries actually left.  In
this pure model the iterator state of a restart is the very same value
`t.iter`, so repeated iteration without intervening mutation yields the
identical sequence definitionally.  For an insertion-built table the yielded
data values are the insertions newest-to-oldest. -/
theorem c6_iterator_exact {T : Type} (t : Table T)
    (hwf : t.next_id = t.chain.length) :
    (iterate t.iter = t.chain) ∧
    ((iterate t.iter).length = t.len) ∧
    (∀ k, k ≤ t.len →
      (t.iter.stepN k).sizeHint = (t.len - k, some (t.len - k)) ∧
      (t.iter.stepN k).item.length = t.len - k) ∧
    (∀ vs : List T,
      (iterate (insertAll Table.new vs).iter).map Symbol.data = vs.reverse) := by
  have hlen : t.len = t.chain.length := hwf
  refine ⟨iterate_item _ _, ?_, ?_, ?_⟩
  · rw [Table.iter, iterate_item, ← hlen]
  · intro k hk
    have hk' : k ≤ t.chain.length := hlen ▸ hk
    rw [Table.iter, stepN_spec k t.len t.chain hk']
    refine ⟨rfl, ?_⟩
    rw [List.length_drop, ← hlen]
  · intro vs
    have h := insertAll_spec vs (Table.new (T := T))
    rw [Table.iter, iterate_item, h.1]
    simp only [Table.new, List.append_nil, List.map_reverse]
    rw [zipWith_mk_map_data _ _ (List.length_range' _ _ _)]

/-- Witness for C6 at a concrete two-element table. -/
theorem c6_witness :
    iterate (insertAll Table.new [(4 : Nat), 9]).iter
      = (insertAll Table.new [(4 : Nat), 9]).chain :=
  (c6_iterator_exact (insertAll Table.new [(4 : Nat), 9]) (by decide)).1

theorem zipWith_mkd_map_id {T : Type} :
    ∀ (ns : List Nat) (ss : List (Symbol T)), ns.length = ss.length →
      (List.zipWith (fun i s => ({ id := i, data := s.data } : Symbol T)) ns ss).map
        Symbol.id = ns := by
  intro ns
  induction ns with
  | nil => intro ss _; simp
  | cons n ns ih =>
    intro ss h
    cases ss with
    | nil => simp at h
    | cons s ss =>
      simp only [List.zipWith_cons_cons, List.map_cons, List.cons.injEq]
      exact ⟨trivial, ih ss (by simpa using h)⟩

theorem zipWith_mkd_map_data {T : Type} :
    ∀ (ns : List Nat) (ss : List (Symbol T)), ns.length = ss.length →
      (List.zipWith (fun i s => ({ id := i, data := s.data } : Symbol T)) ns ss).map
        Symbol.data = ss.map Symbol.data := by
  intro ns
  induction ns with
  | nil =>
    intro ss h
    have hnil : ss = [] := List.length_eq_zero.mp h.symm
    subst hnil
    simp
  | cons n ns ih =>
    intro ss h
    cases ss with
    | nil => simp at h
    | cons s ss =>
      simp only [List.zipWith_cons_cons, List.map_cons, List.cons.injEq]
      exact ⟨trivial, ih ss (by simpa using h)⟩

theorem remapGo_freshF {T : Type} (p : Symbol T → Bool) :
    ∀ (l : List (Symbol T)) (c : Nat) (acc : Table T),
      remapGo (freshF p) c l acc =
        { chain :=
            (List.zipWith (fun i s => ({ id := i, data := s.data } : Symbol T))
              (List.range' c (l.filter p).length) (l.filter p)).reverse ++ acc.chain,
          next_id := acc.next_id + (l.filter p).length } := by
  intro l
  induction l with
  | nil => intro c acc; simp [remapGo]
  | cons s rest ih =>
    intro c acc
    by_cases hp : p s
    · have hf : freshF p c s = (c + 1, some c) := by simp [freshF, hp]
      simp only [remapGo, hf]
      rw [ih (c + 1) _]
      simp only [Table.emplace_head, List.filter_cons, hp, if_true,
        List.length_cons, List.range'_succ, List.zipWith_cons_cons,
        List.reverse_cons, List.append_assoc, List.singleton_append]
      congr 1
      omega
    · have hf : freshF p c s = (c, none) := by simp [freshF, hp]
      simp only [remapGo, hf]
      rw [ih c acc]
      simp [List.filter_cons, hp]

/-- **C3 counterexample.** The claim asserts that `remap` with fresh
sequential identifiers for the survivors, followed by iteration, yields the
surviving entries "preserving their relative order from before the remap".
On the concrete Scenario-A table this is false: before the remap the
even-identifier survivors appear in iteration order as values
`[0, 500, 101]`, but iterating the remapped table yields `[101, 500, 0]` —
the reversed order (the remap loop pushes each survivor onto the head of a
fresh chain, reversing the walk order). -/
theorem c3_counterexample :
    ((iterate (table6.remap (freshF pEven) 0).iter).map Symbol.data
        = [101, 500, 0]) ∧
    (((iterate table6.iter).filter pEven).map Symbol.data = [0, 500, 101]) ∧
    ¬((iterate (table6.remap (freshF pEven) 0).iter).map Symbol.data
        = ((iterate table6.iter).filter pEven).map Symbol.data) := by
  have hiter : ∀ (t : Table Nat), iterate t.iter = t.chain := fun t =>
    iterate_item t.len t.chain
  simp only [hiter]
  decide

/-- **C3 (amended).** For every table and predicate, `remap` with a function
handing out fresh sequential identifiers (counter from zero, incremented per
survivor) and dropping the rest yields exactly the entries for which the
predicate held, with identifiers forming a dense zero-based range (assigned
`0, 1, 2, ...` in newest-to-oldest walk order), but in the *reverse* of their
pre-remap relative order: the resulting chain is the elementwise reversal of
the chain of the spec-modelled `retain(predicate)`, which keeps survivors in
order.  The two agree on the surviving (value, identifier) associations and
on `len()`, and differ exactly by that reversal of iteration order. -/
theorem c3_remap_vs_retain {T : Type} (t : Table T) (p : Symbol T → Bool) :
    ((t.remap (freshF p) 0).chain = (t.retainSpec p).chain.reverse) ∧
    ((t.remap (freshF p) 0).chain.map Symbol.data
        = ((t.chain.filter p).map Symbol.data).reverse) ∧
    ((t.remap (freshF p) 0).chain.map Symbol.id
        = (List.range (t.chain.filter p).length).reverse) ∧
    ((t.remap (freshF p) 0).len = (t.chain.filter p).length) ∧
    ((t.retainSpec p).chain.map Symbol.data
        = (t.chain.filter p).map Symbol.data) ∧
    ((t.retainSpec p).chain.map Symbol.id
        = List.range (t.chain.filter p).length) := by
  have hlen : (List.range' 0 (t.chain.filter p).length).length
      = (t.chain.filter p).length := List.length_range' _ _ _
  have hrw : t.remap (freshF p) 0 =
      { chain :=
          (List.zipWith (fun i s => ({ id := i, data := s.data } : Symbol T))
            (List.range' 0 (t.chain.filter p).length) (t.chain.filter p)).reverse,
        next_id := (t.chain.filter p).length } := by
    rw [Table.remap, remapGo_freshF]
    simp [Table.new]
  have hspec : (t.retainSpec p).chain =
      List.zipWith (fun i s => ({ id := i, data := s.data } : Symbol T))
        (List.range' 0 (t.chain.filter p).length) (t.chain.filter p) := by
    rw [Table.retainSpec, List.range_eq_range']
  refine ⟨?_, ?_, ?_, ?_, ?_, ?_⟩
  · rw [hrw, hspec]
  · rw [hrw]
    simp only [List.map_reverse]
    rw [zipWith_mkd_map_data _ _ hlen]
  · rw [hrw]
    simp only [List.map_reverse]
    rw [zipWith_mkd_map_id _ _ hlen, List.range_eq_range']
  · rw [hrw]
    rfl
  · rw [hspec, zipWith_mkd_map_data _ _ hlen]
  · rw [hspec, zipWith_mkd_map_id _ _ hlen, List.range_eq_range']

theorem vecSet_length {α : Type} :
    ∀ (l : List α) (i : Nat) (a : α) (l' : List α),
      vecSet l i a = some l' → l'.length = l.length := by
  intro l
  induction l with
  | nil => intro i a l' h; simp [vecSet] at h
  | cons b rest ih =>
    intro i a l' h
    cases i with
    | zero =>
      simp only [vecSet, Option.some.injEq] at h
      subst h
      simp
    | succ n =>
      simp only [vecSet, Option.map_eq_some'] at h
      obtain ⟨l'', h1, h2⟩ := h
      subst h2
      simp [ih n a l'' h1]

theorem vecSet_isSome {α : Type} :
    ∀ (l : List α) (i : Nat) (a : α), i < l.length →
      ∃ l', vecSet l i a = some l' := by
  intro l
  induction l with
  | nil => intro i a h; simp at h
  | cons b rest ih =>
    intro i a h
    cases i with
    | zero => exact ⟨a :: rest, rfl⟩
    | succ n =>
      obtain ⟨l', hl'⟩ := ih n a (by simpa using h)
      exact ⟨b :: l', by simp [vecSet, hl']⟩

theorem vecSet_get_eq {α : Type} :
    ∀ (l : List α) (i : Nat) (a : α) (l' : List α),
      vecSet l i a = some l' → l'[i]? = some a := by
  intro l
  induction l with
  | nil => intro i a l' h; simp [vecSet] at h
  | cons b rest ih =>
    intro i a l' h
    cases i with
    | zero =>
      simp only [vecSet, Option.some.injEq] at h
      subst h
      simp
    | succ n =>
      simp only [vecSet, Option.map_eq_some'] at h
      obtain ⟨l'', h1, h2⟩ := h
      subst h2
      simpa using ih n a l'' h1

theorem vecSet_get_ne {α : Type} :
    ∀ (l : List α) (i : Nat) (a : α) (l' : List α) (j : Nat),
      vecSet l i a = some l' → j ≠ i → l'[j]? = l[j]? := by
  intro l
  induction l with
  | nil => intro i a l' j h _; simp [vecSet] at h
  | cons b rest ih =>
    intro i a l' j h hne
    cases i with
    | zero =>
      simp only [vecSet, Option.some.injEq] at h
      subst h
      cases j with
      | zero => exact absurd rfl hne
      | succ m => simp
    | succ n =>
      simp only [vecSet, Option.map_eq_some'] at h
      obtain ⟨l'', h1, h2⟩ := h
      subst h2
      cases j with
      | zero => simp
      | succ m =>
        simp only [List.getElem?_cons_succ]
        exact ih n a l'' m h1 (fun hm => hne (by rw [hm]))

theorem fromTableGo_total {T : Type} [DecidableEq T] :
    ∀ (l : List (Symbol T)) (bs : List (T × Symbol T)) (bi : List (Symbol T)),
      (∀ s ∈ l, s.id < bi.length) →
      ∃ p, fromTableGo l bs bi = some p ∧ p.2.length = bi.length := by
  intro l
  induction l with
  | nil => intro bs bi _; exact ⟨(bs, bi), rfl, rfl⟩
  | cons s rest ih =>
    intro bs bi hb
    obtain ⟨bi', hset⟩ := vecSet_isSome bi s.id s (hb s (List.mem_cons_self _ _))
    have hlen := vecSet_length _ _ _ _ hset
    obtain ⟨p, hp, hplen⟩ := ih (symInsert bs s.data s) bi'
      (fun s' hs' => hlen ▸ hb s' (List.mem_cons_of_mem _ hs'))
    refine ⟨p, ?_, by rw [hplen, hlen]⟩
    unfold fromTableGo
    rw [hset]
    exact hp

theorem fromTableGo_frame_sym {T : Type} [DecidableEq T] :
    ∀ (l : List (Symbol T)) (bs : List (T × Symbol T)) (bi : List (Symbol T))
      (p : List (T × Symbol T) × List (Symbol T)),
      fromTableGo l bs bi = some p →
      ∀ x, x ∉ l.map Symbol.data → symLookup p.1 x = symLookup bs x := by
  intro l
  induction l with
  | nil =>
    intro bs bi p h x _
    simp only [fromTableGo, Option.some.injEq] at h
    subst h
    rfl
  | cons s rest ih =>
    intro bs bi p h x hx
    simp only [List.map_cons, List.mem_cons, not_or] at hx
    rcases hset : vecSet bi s.id s with _ | bi'
    · unfold fromTableGo at h
      rw [hset] at h
      simp at h
    · unfold fromTableGo at h
      rw [hset] at h
      rw [ih _ _ _ h x hx.2, symLookup_symInsert]
      exact if_neg (fun he => hx.1 he.symm)

theorem fromTableGo_frame_id {T : Type} [DecidableEq T] :
    ∀ (l : List (Symbol T)) (bs : List (T × Symbol T)) (bi : List (Symbol T))
      (p : List (T × Symbol T) × List (Symbol T)),
      fromTableGo l bs bi = some p →
      ∀ i : Nat, (∀ s ∈ l, s.id ≠ i) → p.2[i]? = bi[i]? := by
  intro l
  induction l with
  | nil =>
    intro bs bi p h i _
    simp only [fromTableGo, Option.some.injEq] at h
    subst h
    rfl
  | cons s rest ih =>
    intro bs bi p h i hi
    rcases hset : vecSet bi s.id s with _ | bi'
    · unfold fromTableGo at h
      rw [hset] at h
      simp at h
    · unfold fromTableGo at h
      rw [hset] at h
      rw [ih _ _ _ h i (fun s' hs' => hi s' (List.mem_cons_of_mem _ hs'))]
      exact vecSet_get_ne _ _ _ _ _ hset
        (fun he => hi s (List.mem_cons_self _ _) he.symm)

theorem fromTableGo_hit {T : Type} [DecidableEq T] :
    ∀ (l : List (Symbol T)) (bs : List (T × Symbol T)) (bi : List (Symbol T))
      (p : List (T × Symbol T) × List (Symbol T)),
      fromTableGo l bs bi = some p →
      (l.map Symbol.data).Nodup → (l.map Symbol.id).Nodup →
      ∀ s ∈ l, symLookup p.1 s.data = some s ∧ p.2[s.id]? = some s := by
  intro l
  induction l with
  | nil => intro bs bi p _ _ _ s hs; cases hs
  | cons s0 rest ih =>
    intro bs bi p h hd hi s hs
    rcases hset : vecSet bi s0.id s0 with _ | bi'
    · unfold fromTableGo at h
      rw [hset] at h
      simp at h
    · unfold fromTableGo at h
      rw [hset] at h
      simp only [List.map_cons, List.nodup_cons] at hd hi
      rcases List.mem_cons.mp hs with heq | hsr
      · subst heq
        constructor
        · rw [fromTableGo_frame_sym rest _ _ p h s.data hd.1,
            symLookup_symInsert]
          simp
        · rw [fromTableGo_frame_id rest _ _ p h s.id
            (fun s' hs' he => hi.1 (he ▸ List.mem_map_of_mem Symbol.id hs'))]
          exact vecSet_get_eq _ _ _ _ hset
      · exact ih _ _ _ h hd.2 hi.2 s hsr

/-- **C7.** Scenario B: after inserting `[101, 203, 500, 30, 0, 1]` into an
empty table (`len() = 6`, identifiers `5,...,0` from the head), the remap that
keeps exactly the entries with even original identifier and hands out fresh
sequential identifiers in newest-to-oldest walk order maps value `0` (old id
4) to new id 0, value `500` (old id 2) to new id 1 and value `101` (old id 0)
to new id 2, and the resulting `len()` is 3. -/
theorem c7_scenario_b :
    table6.len = 6 ∧
    table6.chain.map Symbol.id = [5, 4, 3, 2, 1, 0] ∧
    (table6.remap (freshF pEven) 0).len = 3 ∧
    ({ id := 0, data := 0 } : Symbol Nat) ∈ (table6.remap (freshF pEven) 0).chain ∧
    ({ id := 1, data := 500 } : Symbol Nat) ∈ (table6.remap (freshF pEven) 0).chain ∧
    ({ id := 2, data := 101 } : Symbol Nat) ∈ (table6.remap (freshF pEven) 0).chain := by
  decide

/-- **C5.** For every table of distinct values with dense identifiers (here:
pairwise-distinct data, pairwise-distinct identifiers, every identifier below
`len()` — all consequences of density) indexed by `HashIndexing::from_table`,
the construction succeeds (no vector write panics) and for every live entry
`e`, `get_symbol(e.id)` returns an entry whose value equals `e`'s value and
`get(e.value)` returns an entry whose identifier equals `e`'s identifier. -/
theorem c5_round_trip {T : Type} [DecidableEq T] (t : Table T)
    (hd : (t.chain.map Symbol.data).Nodup)
    (hids : (t.chain.map Symbol.id).Nodup)
    (hb : ∀ s ∈ t.chain, s.id < t.len) :
    ∃ h, HashIndexing.from_table t = some h ∧
      ∀ e ∈ t.chain,
        (∃ e1, h.get_symbol e.id = some e1 ∧ e1.data = e.data) ∧
        (∃ e2, h.get e.data = some e2 ∧ e2.id = e.id) := by
  rcases hc : t.chain with _ | ⟨s0, rest⟩
  · refine ⟨{ table := t, by_symbol := [], by_id := [] }, ?_, ?_⟩
    · simp only [HashIndexing.from_table, hc]
      rfl
    · intro e he
      simp at he
  · have hb' : ∀ s ∈ s0 :: rest, s.id < (List.replicate t.len s0).length := by
      intro s hsm
      rw [List.length_replicate]
      exact hb s (by rw [hc]; exact hsm)
    obtain ⟨p, hp, _⟩ :=
      fromTableGo_total (s0 :: rest) [] (List.replicate t.len s0) hb'
    have hhit := fromTableGo_hit (s0 :: rest) _ _ p hp
      (by rw [hc] at hd; exact hd) (by rw [hc] at hids; exact hids)
    refine ⟨{ table := t, by_symbol := p.1, by_id := p.2 }, ?_, ?_⟩
    · simp only [HashIndexing.from_table, hc]
      rw [hp]
      rfl
    · intro e he
      have he' : e ∈ s0 :: rest := he
      obtain ⟨h1, h2⟩ := hhit e he'
      exact ⟨⟨e, h2, rfl⟩, ⟨e, h1, rfl⟩⟩

/-- Witness for C5 at a concrete two-element table. -/
theorem c5_witness :
    (((insertAll Table.new [(10 : Nat), 20]).chain.map Symbol.data).Nodup) ∧
    ∃ h, HashIndexing.from_table (insertAll Table.new [(10 : Nat), 20]) = some h ∧
      ∀ e ∈ (insertAll Table.new [(10 : Nat), 20]).chain,
        (∃ e1, h.get_symbol e.id = some e1 ∧ e1.data = e.data) ∧
        (∃ e2, h.get e.data = some e2 ∧ e2.id = e.id) :=
  ⟨by decide, c5_round_trip _ (by decide) (by decide) (by decide)⟩

/-- **C8.** For every `HashIndexing` consistent with its table (the invariant
holds on the empty index and is preserved by every `get_or_insert`, see
`indexInv_runGOI`), `get(v)` for a value with no equal live value returns
`None`, and `get_symbol(id)` for an identifier not carried by any live
indexed entry returns `None`.  Both operations are pure functions of the
index in this model — they cannot mutate it — and are total: absence is the
ordinary `Option.none` result, never an error or a panic. -/
theorem c8_absent_is_none {T : Type} [DecidableEq T] (h : HashIndexing T)
    (hinv : IndexInv h) (v : T) (i : Nat) :
    ((∀ s ∈ h.table.chain, s.data ≠ v) → h.get v = none) ∧
    ((∀ s ∈ h.table.chain, s.id ≠ i) → h.get_symbol i = none) := by
  obtain ⟨_, hsym, hid, _, _⟩ := hinv
  constructor
  · intro habs
    show symLookup h.by_symbol v = none
    cases hl : symLookup h.by_symbol v with
    | none => rfl
    | some s =>
      obtain ⟨hs, hdata⟩ := (hsym v s).mp hl
      exact absurd hdata (habs s hs)
  · intro habs
    show h.by_id[i]? = none
    cases hl : h.by_id[i]? with
    | none => rfl
    | some s =>
      obtain ⟨hs, hid'⟩ := hid i s hl
      exact absurd hid' (habs s hs)

/-- Witness for C8: in the index built from inserting `1` and `2`, looking up
the absent value `7` yields `none`. -/
theorem c8_witness :
    (∀ s ∈ (runGOI [(1 : Nat), 2]).table.chain, s.data ≠ 7) ∧
      (runGOI [(1 : Nat), 2]).get 7 = none :=
  ⟨by decide,
    (c8_absent_is_none (runGOI [(1 : Nat), 2]) (indexInv_runGOI [1, 2]) 7 0).1
      (by decide)⟩

theorem mapLookup_mapInsert {T : Type} [DecidableEq T]
    (m : List (T × Nat)) (k x : T) (v : Nat) :
    mapLookup (mapInsert m k v) x = if k = x then some v else mapLookup m x := by
  induction m with
  | nil => simp [mapInsert, mapLookup]
  | cons p rest ih =>
    obtain ⟨k', v'⟩ := p
    simp only [mapInsert]
    by_cases hk : k' = k
    · subst hk
      rw [if_pos rfl]
      by_cases hx : k' = x
      · subst hx
        simp [mapLookup]
      · simp [mapLookup, hx]
    · rw [if_neg hk]
      by_cases hx2 : k' = x
      · subst hx2
        have hkx : ¬k = k' := fun hs => hk hs.symm
        simp [mapLookup, hkx]
      · simp [mapLookup, hx2, ih]

theorem mapInsert_keys_mem {T : Type} [DecidableEq T] :
    ∀ (m : List (T × Nat)) (k : T) (v : Nat) (x : T),
      x ∈ (mapInsert m k v).map Prod.fst ↔ (x ∈ m.map Prod.fst ∨ x = k) := by
  intro m k v
  induction m with
  | nil => intro x; simp [mapInsert]
  | cons p rest ih =>
    intro x
    obtain ⟨k', v'⟩ := p
    simp only [mapInsert]
    by_cases hk : k' = k
    · subst hk
      rw [if_pos rfl]
      simp only [List.map_cons, List.mem_cons]
      tauto
    · rw [if_neg hk]
      simp only [List.map_cons, List.mem_cons, ih x]
      tauto

theorem mapInsert_keys_nodup {T : Type} [DecidableEq T] :
    ∀ (m : List (T × Nat)) (k : T) (v : Nat),
      ((m.map Prod.fst).Nodup) → (((mapInsert m k v).map Prod.fst).Nodup) := by
  intro m k v
  induction m with
  | nil => intro _; simp [mapInsert]
  | cons p rest ih =>
    intro hnd
    obtain ⟨k', v'⟩ := p
    simp only [List.map_cons, List.nodup_cons] at hnd
    simp only [mapInsert]
    by_cases hk : k' = k
    · subst hk
      rw [if_pos rfl]
      simp only [List.map_cons, List.nodup_cons]
      exact hnd
    · rw [if_neg hk]
      simp only [List.map_cons, List.nodup_cons]
      refine ⟨?_, ih hnd.2⟩
      rw [mapInsert_keys_mem]
      rintro (hmem | heq)
      · exact hnd.1 hmem
      · exact hk heq

theorem toHashMapGo_keys_nodup {T : Type} [DecidableEq T] :
    ∀ (l : List (Symbol T)) (m : List (T × Nat)),
      ((m.map Prod.fst).Nodup) → (((toHashMapGo l m).map Prod.fst).Nodup) := by
  intro l
  induction l with
  | nil => intro m h; exact h
  | cons s rest ih =>
    intro m h
    exact ih _ (mapInsert_keys_nodup m s.data s.id h)

theorem toHashMapGo_keys_mem {T : Type} [DecidableEq T] :
    ∀ (l : List (Symbol T)) (m : List (T × Nat)) (x : T),
      x ∈ (toHashMapGo l m).map Prod.fst ↔
        (x ∈ l.map Symbol.data ∨ x ∈ m.map Prod.fst) := by
  intro l
  induction l with
  | nil => intro m x; simp [toHashMapGo]
  | cons s rest ih =>
    intro m x
    show x ∈ (toHashMapGo rest (mapInsert m s.data s.id)).map Prod.fst ↔ _
    rw [ih, mapInsert_keys_mem]
    simp only [List.map_cons, List.mem_cons]
    tauto

theorem toHashMapGo_sound {T : Type} [DecidableEq T] :
    ∀ (l : List (Symbol T)) (m : List (T × Nat)) (x : T) (d : Nat),
      mapLookup (toHashMapGo l m) x = some d →
        (∃ s ∈ l, s.data = x ∧ s.id = d) ∨ mapLookup m x = some d := by
  intro l
  induction l with
  | nil => intro m x d h; exact Or.inr h
  | cons s rest ih =>
    intro m x d h
    rcases ih _ x d h with hr | hm
    · obtain ⟨s', hs', hdata, hid'⟩ := hr
      exact Or.inl ⟨s', List.mem_cons_of_mem _ hs', hdata, hid'⟩
    · rw [mapLookup_mapInsert] at hm
      by_cases hx : s.data = x
      · rw [if_pos hx] at hm
        injection hm with hm
        exact Or.inl ⟨s, List.mem_cons_self _ _, hx, hm⟩
      · rw [if_neg hx] at hm
        exact Or.inr hm

/-- **C9.** For every table, `to_hash_map` returns a map containing exactly
one key-identifier binding per distinct data value among the live entries
(keys are pairwise distinct and are exactly the live data values), and every
binding maps a value to the identifier of one of the live entries holding
that value — so values inserted more than once contribute exactly one
(unspecified which) surviving binding. -/
theorem c9_to_hash_map_bindings {T : Type} [DecidableEq T] (t : Table T) :
    ((t.to_hash_map.map Prod.fst).Nodup) ∧
    (∀ v, v ∈ t.to_hash_map.map Prod.fst ↔ ∃ s ∈ t.chain, s.data = v) ∧
    (∀ v d, mapLookup t.to_hash_map v = some d →
      ∃ s ∈ t.chain, s.data = v ∧ s.id = d) := by
  refine ⟨toHashMapGo_keys_nodup t.chain [] (by simp), ?_, ?_⟩
  · intro v
    show v ∈ (toHashMapGo t.chain []).map Prod.fst ↔ _
    rw [toHashMapGo_keys_mem]
    simp [List.mem_map, eq_comm]
  · intro v d hl
    rcases toHashMapGo_sound t.chain [] v d hl with h | h
    · exact h
    · simp [mapLookup] at h

/-- **C10.** Symbol equality, hashing and ordering are determined solely by
the stored data, ignoring the identifier (and, in the Rust struct, the chain
link): `a == b` iff the data are equal; for any hasher the symbol's hash is
the hash of its data (so symbols whose data hash identically hash
identically); for any comparison the symbols compare exactly as their data;
and two entries with equal data but different identifiers compare as
equal. -/
theorem c10_symbol_data_only {T : Type} [DecidableEq T] (hf : T → Nat)
    (c : T → T → Ordering) (a b : Symbol T) :
    (symbolBEq a b = true ↔ a.data = b.data) ∧
    (symbolHash hf a = hf a.data) ∧
    (hf a.data = hf b.data → symbolHash hf a = symbolHash hf b) ∧
    (symbolCmp c a b = c a.data b.data) ∧
    (a.data = b.data → a.id ≠ b.id → symbolBEq a b = true) := by
  refine ⟨?_, rfl, ?_, rfl, ?_⟩
  · simp [symbolBEq]
  · intro h
    simp [symbolHash, h]
  · intro h _
    simp [symbolBEq, h]

/-- Witness for C10: two symbols with equal data and distinct identifiers are
equal under the symbol equality. -/
theorem c10_witness :
    symbolBEq ({ id := 0, data := 3 } : Symbol Nat) { id := 1, data := 3 } = true :=
  (c10_symbol_data_only (fun x => x) (fun x y => compare x y)
    { id := 0, data := 3 } { id := 1, data := 3 }).2.2.2.2 rfl (by decide)

end SymbolMap
